import Mathlib

/-!
Verification of the chord-identification core of the `struck` repository.

The data model and operations below are shallow embeddings of the Rust
source: `src/theory/note.rs`, `src/theory/interval.rs`, `src/theory/chord.rs`
and `src/parser/chord_parser.rs`. Rust `Vec` becomes `List`, machine
integers become `Nat` (all the arithmetic here stays far below any
overflow boundary), fallible operations become `Option`/`Except`, and the
regex scans of the parser become explicit leftmost-first token scanners.
Definitions whose doc comment starts with `Modelled from the spec:` embed
parts of the program whose source file is not part of the snapshot (only
their callers and tests are); they follow the specification text.
-/

namespace Struck

/-- The 12 pitch classes, from `Note` in `src/theory/note.rs`. -/
inductive Note where
  | C | Cs | D | Ds | E | F | Fs | G | Gs | A | As | B
deriving DecidableEq, Repr

/-- The fixed chromatic ordering, `OCTAVE` in `src/theory/interval.rs`. -/
def OCTAVE : List Note :=
  [Note.C, Note.Cs, Note.D, Note.Ds, Note.E, Note.F,
   Note.Fs, Note.G, Note.Gs, Note.A, Note.As, Note.B]

/-- The named semitone distances, `Interval` in `src/theory/interval.rs`. -/
inductive Interval where
  | MajorSecond
  | MinorThird
  | MajorThird
  | PerfectFourth
  | DiminishedFifth
  | PerfectFifth
  | AugmentedFifth
  | DiminishedSeventh
  | MinorSeventh
  | Seventh
  | DiminishedNinth
  | MinorNinth
  | MajorNinth
  | PerfectEleventh
  | Unknown
deriving DecidableEq, Repr

/-- The discriminant values of the Rust `Interval` enum (semitone counts). -/
def Interval.semitones : Interval → Nat
  | .MajorSecond => 2
  | .MinorThird => 3
  | .MajorThird => 4
  | .PerfectFourth => 5
  | .DiminishedFifth => 6
  | .PerfectFifth => 7
  | .AugmentedFifth => 8
  | .DiminishedSeventh => 9
  | .MinorSeventh => 10
  | .Seventh => 11
  | .DiminishedNinth => 12
  | .MinorNinth => 13
  | .MajorNinth => 14
  | .PerfectEleventh => 17
  | .Unknown => 100

/-- `impl From<usize> for Interval` in `src/theory/interval.rs`. -/
def intervalFromNat : Nat → Interval
  | 2 => .MajorSecond
  | 3 => .MinorThird
  | 4 => .MajorThird
  | 5 => .PerfectFourth
  | 6 => .DiminishedFifth
  | 7 => .PerfectFifth
  | 8 => .AugmentedFifth
  | 9 => .DiminishedSeventh
  | 10 => .MinorSeventh
  | 11 => .Seventh
  | 12 => .DiminishedNinth
  | 13 => .MinorNinth
  | 14 => .MajorNinth
  | 17 => .PerfectEleventh
  | _ => .Unknown

/-- Position of a note in `OCTAVE`, as the `find_position` calls in
`src/theory/interval.rs` compute it. -/
def octavePosition (n : Note) : Option Nat :=
  OCTAVE.findIdx? (fun e => e == n)

/-- The semitone computation of `find_interval` in `src/theory/interval.rs`.
`none` models the `expect("NOTE NOT PRESENT IN OCTAVE")` panic branches. -/
def find_semitones_opt (root note : Note) : Option Nat :=
  match octavePosition root, octavePosition note with
  | some root_pos, some note_pos =>
      let note_pos := if note_pos < root_pos then note_pos + 12 else note_pos
      some (note_pos - root_pos)
  | _, _ => none

/-- `find_interval` of `src/theory/interval.rs`, with the panic branches
modelled as `none`. -/
def find_interval_opt (root note : Note) : Option Interval :=
  (find_semitones_opt root note).map intervalFromNat

/-- Total wrapper over `find_semitones_opt` (the default is never used:
every `Note` occurs in `OCTAVE`). -/
def find_semitones (root note : Note) : Nat :=
  (find_semitones_opt root note).getD 0

/-- Total wrapper over `find_interval_opt`. -/
def find_interval (root note : Note) : Interval :=
  intervalFromNat (find_semitones root note)

/-- `get_interval` of `src/theory/interval.rs`: the note this many
semitones above `note`, with the source's `unwrap_or`-style defaults. -/
def get_interval (note : Note) (interval : Interval) : Note :=
  let root_index := (OCTAVE.findIdx? (fun e => e == note)).getD 0
  let interval_index := (root_index + interval.semitones) % 12
  (OCTAVE.get? interval_index).getD Note.A

example : find_interval Note.C Note.E = Interval.MajorThird := by decide
example : find_interval Note.G Note.F = Interval.MinorSeventh := by decide
example : find_interval Note.G Note.A = Interval.MajorSecond := by decide
example : get_interval Note.C Interval.MajorThird = Note.E := by decide
example : get_interval Note.G Interval.PerfectFifth = Note.D := by decide
example : get_interval Note.G Interval.MinorSeventh = Note.F := by decide

/-- `SuspendedType` from `src/parser/chord_parser.rs` / `src/theory/chord.rs`. -/
inductive SuspendedType where
  | Sus2 | Sus4
deriving DecidableEq, Repr

/-- Modelled from the spec: the `SeventhType` enum used by
`src/parser/chord_parser.rs`; its defining module is not in the snapshot
(the stale `src/theory/chord.rs` has only a three-variant version). -/
inductive SeventhType where
  | Minor
  | Major
  | Dominant
  | Augmented
  | HalfDiminished
  | Diminished
  | Suspended (s : SuspendedType)
deriving DecidableEq, Repr

/-- Modelled from the spec: the `ChordQuality` enum used by
`src/parser/chord_parser.rs`, with a `Seventh(SeventhType)` variant; the
stale `src/theory/chord.rs` spells the seventh qualities as separate
variants (`MinorSeventh`, `Dominant`, `AugmentedSeventh`,
`SuspendedSeventh`), which correspond one-to-one to `Seventh` values here. -/
inductive ChordQuality where
  | Major
  | Minor
  | Diminished
  | Augmented
  | Suspended (s : SuspendedType)
  | Seventh (s : SeventhType)
  | Ambiguous
deriving DecidableEq, Repr

/-- `TriadQuality` from `src/theory/chord.rs`. -/
inductive TriadQuality where
  | Major | Minor | Diminished | Augmented | Ambiguous
deriving DecidableEq, Repr

/-- Modelled from the spec: `impl From<ChordQuality> for TriadQuality` over
the seven-variant `ChordQuality`; the snapshot only has the version for the
stale enum. Each seventh type carries its triad implication. -/
def triad_quality_of_chord_quality : ChordQuality → TriadQuality
  | .Major | .Seventh .Dominant | .Seventh .Major => .Major
  | .Minor | .Seventh .Minor => .Minor
  | .Diminished | .Seventh .Diminished | .Seventh .HalfDiminished => .Diminished
  | .Augmented | .Seventh .Augmented => .Augmented
  | .Suspended _ | .Seventh (.Suspended _) | .Ambiguous => .Ambiguous

/-- The canonical quality-to-interval-set table,
`impl From<ChordQuality> for Vec<Interval>` in `src/theory/chord.rs`
(lines 198-243). The rows for the `Seventh` variants other than
`Seventh(Minor)`/`Seventh(Dominant)` are modelled from the spec, which
requires exactly one canonical interval set per variant; the stale file
only has rows for its own enum. `Ambiguous` falls to the catch-all `vec![]`. -/
def chord_quality_intervals : ChordQuality → List Interval
  | .Minor => [.MinorThird, .PerfectFifth]
  | .Major => [.MajorThird, .PerfectFifth]
  | .Diminished => [.MinorThird, .DiminishedFifth]
  | .Augmented => [.MajorThird, .AugmentedFifth]
  | .Seventh .Minor => [.MinorThird, .PerfectFifth, .MinorSeventh]
  | .Seventh .Dominant => [.MajorThird, .PerfectFifth, .MinorSeventh]
  | .Seventh .Augmented => [.MajorThird, .AugmentedFifth, .MinorSeventh]
  | .Seventh .Major => [.MajorThird, .PerfectFifth, .Seventh]
  | .Seventh .HalfDiminished => [.MinorThird, .DiminishedFifth, .MinorSeventh]
  | .Seventh .Diminished => [.MinorThird, .DiminishedFifth, .DiminishedSeventh]
  | .Seventh (.Suspended .Sus2) => [.MajorSecond, .PerfectFifth, .MinorSeventh]
  | .Seventh (.Suspended .Sus4) => [.PerfectFourth, .PerfectFifth, .MinorSeventh]
  | .Suspended .Sus2 => [.MajorSecond, .PerfectFifth]
  | .Suspended .Sus4 => [.PerfectFourth, .PerfectFifth]
  | .Ambiguous => []

/-- The quality classifier, `derive_chord_quality_from_intervals` in
`src/theory/chord.rs` (lines 331-403). `has_fourth` mirrors the source,
where it also tests `MajorSecond` (line 341). -/
def derive_chord_quality_from_intervals (intervals : List Interval) : ChordQuality :=
  let has_second := intervals.contains Interval.MajorSecond
  let has_fourth := intervals.contains Interval.MajorSecond
  let has_minor_third := intervals.contains Interval.MinorThird
  let has_major_third := intervals.contains Interval.MajorThird
  let has_diminished_fifth := intervals.contains Interval.DiminishedFifth
  let has_perfect_fifth := intervals.contains Interval.PerfectFifth
  let has_augmented_fifth := intervals.contains Interval.AugmentedFifth
  let has_minor_seventh := intervals.contains Interval.MinorSeventh
  match has_minor_third, has_major_third with
  | true, true => .Ambiguous
  | false, false =>
      if !has_perfect_fifth then .Ambiguous
      else if has_second && has_fourth then .Ambiguous
      else if has_second then .Suspended .Sus2
      else if has_fourth then .Suspended .Sus4
      else .Ambiguous
  | true, false =>
      if has_perfect_fifth then
        if has_minor_seventh then .Seventh .Minor else .Minor
      else if has_diminished_fifth && !has_augmented_fifth then .Diminished
      else .Ambiguous
  | false, true =>
      if has_perfect_fifth then
        if has_minor_seventh then .Seventh .Dominant else .Major
      else if has_augmented_fifth && !has_diminished_fifth then .Augmented
      else .Ambiguous

example :
    derive_chord_quality_from_intervals [.MajorThird, .PerfectFifth] =
      ChordQuality.Major := by decide
example :
    derive_chord_quality_from_intervals
      [.MajorThird, .PerfectFifth, .DiminishedFifth, .AugmentedFifth] =
      ChordQuality.Major := by decide

/-- Modelled from the spec: step 1 of the interval deriver (section 4.3) —
the semitone distance from the root to every other note of the sequence,
skipping the root itself wherever it appears. The public register-break
deriver that `src/parser/chord_parser.rs` imports is not in the snapshot
(the stale private variant in `src/theory/chord.rs` merely drops the first
element). -/
def rawSemitoneSequence (root : Note) : List Note → List Nat
  | [] => []
  | n :: ns =>
      if n == root then rawSemitoneSequence root ns
      else find_semitones root n :: rawSemitoneSequence root ns

/-- Modelled from the spec: once a raw semitone value is smaller than its
predecessor (a register break), that value and every subsequent one is
raised an octave (plus 12). `prev` is the preceding raw value. -/
def octaveShiftFrom (prev : Nat) : List Nat → List Nat
  | [] => []
  | r :: rs =>
      if r < prev then (r + 12) :: rs.map (· + 12)
      else r :: octaveShiftFrom r rs

/-- Modelled from the spec: step 2 of the interval deriver (section 4.3) —
octave disambiguation from the first register break onward. -/
def octaveDisambiguate : List Nat → List Nat
  | [] => []
  | r :: rs => r :: octaveShiftFrom r rs

/-- Modelled from the spec: step 3 of the interval deriver (section 4.3) —
remove consecutive duplicate interval values (the semantics of
`Vec::dedup`, not a full set de-duplication). -/
def dedupConsecutive : List Interval → List Interval
  | [] => []
  | [a] => [a]
  | a :: b :: rest =>
      if a = b then dedupConsecutive (b :: rest)
      else a :: dedupConsecutive (b :: rest)

/-- Modelled from the spec: the register-break interval deriver
`find_all_intervals_from_root_and_notes` that
`src/parser/chord_parser.rs` imports (sections 4.3 of the spec; the
comment in `src/theory/interval.rs` documents the register-break pass). -/
def find_all_intervals_from_root_and_notes (root : Note) (notes : List Note) :
    List Interval :=
  dedupConsecutive
    ((octaveDisambiguate (rawSemitoneSequence root notes)).map intervalFromNat)

/-- Modelled from the spec: `get_notes_from_root_and_intervals`, imported by
`src/parser/chord_parser.rs` but absent from the snapshot; spec section 4.5
stage 5, matching the inline chain in the stale `src/theory/chord.rs`. -/
def get_notes_from_root_and_intervals (root : Note) (intervals : List Interval) :
    List Note :=
  root :: intervals.map (fun i => get_interval root i)

/-- The textual spelling of a note (`impl Display for Note`). -/
def noteName : Note → List Char
  | .C => "C".toList
  | .Cs => "C#".toList
  | .D => "D".toList
  | .Ds => "D#".toList
  | .E => "E".toList
  | .F => "F".toList
  | .Fs => "F#".toList
  | .G => "G".toList
  | .Gs => "G#".toList
  | .A => "A".toList
  | .As => "A#".toList
  | .B => "B".toList

/-- The error type of `src/theory/error.rs` (strings as character lists). -/
inductive ChordParseError where
  | InvalidChordName (msg : List Char)
deriving DecidableEq, Repr

/-- The result entity `Chord` of `src/theory/chord.rs` (strings as
character lists). `add_degree` models `Option<AddInterval>`. -/
structure Chord where
  name : List Char
  root : Note
  notes : List Note
  triad_quality : TriadQuality
  chord_quality : ChordQuality
  add_degree : Option Interval
  intervals : List Interval
deriving DecidableEq, Repr

/-- The display-name computation inside `identify_from_root_and_notes`
(`src/parser/chord_parser.rs` lines 50-71). -/
def chord_name_of (root : Note) : ChordQuality → List Char
  | .Ambiguous => "Ambiguous".toList
  | .Minor => noteName root ++ "m".toList
  | .Major => noteName root
  | .Diminished => noteName root ++ "dim".toList
  | .Augmented => noteName root ++ "aug".toList
  | .Seventh .Augmented => noteName root ++ "aug7".toList
  | .Seventh .Major => noteName root ++ "maj7".toList
  | .Seventh .HalfDiminished => noteName root ++ "○7".toList
  | .Seventh .Minor => noteName root ++ "m7".toList
  | .Seventh .Diminished => noteName root ++ "dim7".toList
  | .Seventh .Dominant => noteName root ++ "7".toList
  | .Seventh (.Suspended .Sus2) => noteName root ++ "7sus2".toList
  | .Seventh (.Suspended .Sus4) => noteName root ++ "7sus4".toList
  | .Suspended .Sus2 => noteName root ++ "sus2".toList
  | .Suspended .Sus4 => noteName root ++ "sus4".toList

/-- `identify_from_root_and_notes` from `src/parser/chord_parser.rs`
(lines 41-81). The builder leaves `notes` at its default (the
`.notes(notes)` call is commented out in the source) and never sets
`add_degree`. -/
def identify_from_root_and_notes (root : Note) (notes : List Note) : Chord :=
  let intervals := find_all_intervals_from_root_and_notes root notes
  let chord_quality := derive_chord_quality_from_intervals intervals
  { name := chord_name_of root chord_quality
    root := root
    notes := []
    triad_quality := triad_quality_of_chord_quality chord_quality
    chord_quality := chord_quality
    add_degree := none
    intervals := intervals }

example :
    (identify_from_root_and_notes Note.G
        [Note.G, Note.As, Note.D, Note.F, Note.A, Note.C]).intervals =
      [.MinorThird, .PerfectFifth, .MinorSeventh, .MajorNinth, .PerfectEleventh] := by
  decide

example :
    (identify_from_root_and_notes Note.G
        [Note.G, Note.As, Note.D, Note.F, Note.A, Note.C]).chord_quality =
      ChordQuality.Seventh .Minor := by decide

/-! ### The name parsing entry point (`src/parser/chord_parser.rs`)

The Rust side uses the `regex` crate, whose `find`/`captures` semantics are
leftmost-first: the earliest starting position wins, and at that position
alternatives are tried in the order written. The scanners below implement
exactly that for the alternation-only patterns the parser uses. -/

/-- Leftmost-first search for one of `alts` inside `s`: at each position the
alternatives are tried in order; the first position with a match wins. -/
def find_first_token (alts : List (List Char)) : List Char → Option (List Char)
  | [] => none
  | c :: rest =>
      match alts.find? (fun t => t.isPrefixOf (c :: rest)) with
      | some t => some t
      | none => find_first_token alts rest

/-- One backtracking attempt of a two-group alternation pattern
`(alts1)(alts2)` at the start of `s`. -/
def captures_at (alts1 alts2 : List (List Char)) (s : List Char) :
    Option (List Char × List Char) :=
  alts1.findSome? (fun t1 =>
    if t1.isPrefixOf s then
      (alts2.find? (fun t2 => t2.isPrefixOf (s.drop t1.length))).map
        (fun t2 => (t1, t2))
    else none)

/-- Leftmost-first search for a two-group alternation pattern. -/
def find_first_captures (alts1 alts2 : List (List Char)) :
    List Char → Option (List Char × List Char)
  | [] => none
  | c :: rest =>
      match captures_at alts1 alts2 (c :: rest) with
      | some r => some r
      | none => find_first_captures alts1 alts2 rest

/-- The root pattern `(A#|A|B|C#|C|D#|D|E|F#|F|G#|G)` of
`identify_from_name` (sharps before naturals). -/
def noteTokens : List (List Char) :=
  ["A#", "A", "B", "C#", "C", "D#", "D", "E", "F#", "F", "G#", "G"].map
    String.toList

/-- The base-quality pattern `(dim|m|aug|sus2|sus4)`. -/
def qualityTokens : List (List Char) :=
  ["dim", "m", "aug", "sus2", "sus4"].map String.toList

/-- Group 1 of the extension pattern
`(aug|dim|C#|C|D#|D|E|F#|F|G#|G|A#|A|B|m)(7|9|11)`. -/
def extensionGroup1 : List (List Char) :=
  ["aug", "dim", "C#", "C", "D#", "D", "E", "F#", "F", "G#", "G",
   "A#", "A", "B", "m"].map String.toList

/-- Group 2 of the extension pattern and of the add pattern: `(7|9|11)`. -/
def extensionNumerals : List (List Char) :=
  ["7", "9", "11"].map String.toList

/-- `impl FromStr for Note` in `src/theory/note.rs` (including the `Db`
spelling), with the error branch as `none`. -/
def note_from_str (s : List Char) : Option Note :=
  if s = "C".toList then some .C
  else if s = "C#".toList then some .Cs
  else if s = "Db".toList then some .Cs
  else if s = "D".toList then some .D
  else if s = "D#".toList then some .Ds
  else if s = "E".toList then some .E
  else if s = "F".toList then some .F
  else if s = "F#".toList then some .Fs
  else if s = "G".toList then some .G
  else if s = "G#".toList then some .Gs
  else if s = "A".toList then some .A
  else if s = "A#".toList then some .As
  else if s = "B".toList then some .B
  else none

/-- `parse_chord_quality` from `src/parser/chord_parser.rs` (lines 20-37). -/
def parse_chord_quality (s : List Char) : Except ChordParseError ChordQuality :=
  if s = "m".toList then .ok .Minor
  else if s = "dim".toList then .ok .Diminished
  else if s = "aug".toList then .ok .Augmented
  else if s = "sus2".toList then .ok (.Suspended .Sus2)
  else if s = "sus4".toList then .ok (.Suspended .Sus4)
  else if s = "aug7".toList then .ok (.Seventh .Augmented)
  else if s = "m7".toList then .ok (.Seventh .Minor)
  else if s = "7".toList then .ok (.Seventh .Dominant)
  else .error (.InvalidChordName ("invalid chord name".toList))

/-- `get_add_interval_from_add` from `src/theory/chord.rs` (lines 448-456). -/
def get_add_interval_from_add (add_str : List Char) : Interval :=
  if add_str = "7".toList then .MinorSeventh
  else if add_str = "9".toList then .MajorNinth
  else if add_str = "11".toList then .PerfectEleventh
  else .Unknown

/-- The base-quality stage of `identify_from_name`
(`src/parser/chord_parser.rs` lines 110-129): absence of a quality token
defaults to `Major`; an unrecognized token is a distinct failure. -/
def base_quality_result (chord_name : List Char) :
    Except ChordParseError ChordQuality :=
  match find_first_token qualityTokens chord_name with
  | some t =>
      match parse_chord_quality t with
      | .ok c => .ok c
      | .error _ =>
          .error (.InvalidChordName
            ("couldn't identify root note in string".toList))
  | none => .ok .Major

/-- The interval pushes for an extension numeral
(`src/parser/chord_parser.rs` lines 145-183): `7` appends a minor 7th
(diminished 7th for a `Diminished` base), `9` additionally a major 9th,
`11` appends the diminished chain `dim7, min9` for a `Diminished` base
(else `min7, maj9`) and then a perfect 11th. -/
def apply_extension_numeral (q : ChordQuality) (numeral : List Char)
    (intervals : List Interval) : List Interval :=
  if numeral = "7".toList then
    match q with
    | .Diminished => intervals ++ [.DiminishedSeventh]
    | _ => intervals ++ [.MinorSeventh]
  else if numeral = "9".toList then
    (match q with
     | .Diminished => intervals ++ [.DiminishedSeventh]
     | _ => intervals ++ [.MinorSeventh]) ++ [.MajorNinth]
  else if numeral = "11".toList then
    (match q with
     | .Diminished => intervals ++ [.DiminishedSeventh, .MinorNinth]
     | _ => intervals ++ [.MinorSeventh, .MajorNinth]) ++ [.PerfectEleventh]
  else intervals

/-- The quality promotion applied when an extension token matched
(`src/parser/chord_parser.rs` lines 190-202). -/
def promote_seventh : ChordQuality → ChordQuality
  | .Suspended s => .Seventh (.Suspended s)
  | .Minor => .Seventh .Minor
  | .Major => .Seventh .Major
  | .Diminished => .Seventh .Diminished
  | .Augmented => .Seventh .Augmented
  | q => q

/-- The extension-enrichment stage of `identify_from_name`
(`src/parser/chord_parser.rs` lines 138-205): on a match, push the
numeral's intervals, collapse consecutive duplicates, promote the quality. -/
def extension_step (chord_name : List Char) (q : ChordQuality)
    (intervals : List Interval) : List Interval × ChordQuality :=
  match find_first_captures extensionGroup1 extensionNumerals chord_name with
  | some cap =>
      (dedupConsecutive (apply_extension_numeral q cap.2 intervals),
       promote_seventh q)
  | none => (intervals, q)

/-- The add-token scan of `identify_from_name`
(`src/parser/chord_parser.rs` lines 214-221), pattern `(add)(7|9|11)`. -/
def add_scan (chord_name : List Char) : Option Interval :=
  match find_first_captures ["add".toList] extensionNumerals chord_name with
  | some cap =>
      match get_add_interval_from_add cap.2 with
      | .Unknown => none
      | i => some i
  | none => none

/-- The add-reconciliation stage of `identify_from_name`
(`src/parser/chord_parser.rs` lines 223-234): append the add interval when
absent and re-run the classifier. -/
def add_step (add_degree : Option Interval) (intervals : List Interval)
    (q : ChordQuality) : List Interval × ChordQuality :=
  match add_degree with
  | some i =>
      if intervals.contains i then (intervals, q)
      else (intervals ++ [i],
            derive_chord_quality_from_intervals (intervals ++ [i]))
  | none => (intervals, q)

/-- `identify_from_name` from `src/parser/chord_parser.rs` (lines 87-246).
Note the source computes `triad_quality` before the add stage and does not
recompute it, and never stores the add degree in the builder. -/
def identify_from_name (chord_name : List Char) : Except ChordParseError Chord :=
  match find_first_token noteTokens chord_name with
  | none =>
      .error (.InvalidChordName
        ("couldn't identify root note in string".toList))
  | some mat =>
      match note_from_str mat with
      | none =>
          .error (.InvalidChordName
            ("couldn't identify root note in string".toList))
      | some root =>
          match base_quality_result chord_name with
          | .error e => .error e
          | .ok base =>
              let res := extension_step chord_name base
                (chord_quality_intervals base)
              let triad := triad_quality_of_chord_quality res.2
              let fin := add_step (add_scan chord_name) res.1 res.2
              .ok
                { name := chord_name
                  root := root
                  notes := get_notes_from_root_and_intervals root fin.1
                  triad_quality := triad
                  chord_quality := fin.2
                  add_degree := none
                  intervals := fin.1 }

/-! ### Claim theorems -/

/-- C6: an interval set containing both a minor 3rd and a major 3rd is
always classified `Ambiguous`, whatever else the set contains. -/
theorem C6_both_thirds_ambiguous (ivs : List Interval)
    (h3 : ivs.contains Interval.MinorThird = true)
    (h4 : ivs.contains Interval.MajorThird = true) :
    derive_chord_quality_from_intervals ivs = .Ambiguous := by
  simp only [derive_chord_quality_from_intervals, h3, h4]

theorem C6_both_thirds_ambiguous_witness :
    derive_chord_quality_from_intervals
      [Interval.MinorThird, Interval.MajorThird, Interval.PerfectFifth] =
      .Ambiguous :=
  C6_both_thirds_ambiguous
    [Interval.MinorThird, Interval.MajorThird, Interval.PerfectFifth]
    (by decide) (by decide)

/-- C2 (failing evaluation): because line 341 of `src/theory/chord.rs`
computes `has_fourth` from `MajorSecond`, a lone major 2nd over a perfect
5th trips the "both present" guard and a lone perfect 4th is never seen:
both classify `Ambiguous` instead of `Suspended(Sus2)` / `Suspended(Sus4)`.
Only the both-present clause of the claim holds. Through the add stage the
same slip makes the parser classify `G7sus2add11` as `Ambiguous`, against
the repository's own `test_identify_complex_g7sus2add11`. -/
theorem C2_sus_classification_bug :
    derive_chord_quality_from_intervals
        [Interval.MajorSecond, Interval.PerfectFifth] = .Ambiguous ∧
    derive_chord_quality_from_intervals
        [Interval.PerfectFourth, Interval.PerfectFifth] = .Ambiguous ∧
    derive_chord_quality_from_intervals
        [Interval.MajorSecond, Interval.PerfectFourth, Interval.PerfectFifth] =
      .Ambiguous ∧
    (identify_from_name ("G7sus2add11".toList)).toOption.map Chord.chord_quality =
      some .Ambiguous := by
  refine ⟨by decide, by decide, by decide, by decide⟩

/-- C5 (counterexample): with every 5th omitted, a major 3rd plus minor 7th
does not classify as the dominant seventh, and a minor 3rd plus minor 7th
does not classify as the minor seventh; both are `Ambiguous`. -/
theorem C5_counterexample :
    derive_chord_quality_from_intervals
        [Interval.MajorThird, Interval.MinorSeventh] = .Ambiguous ∧
    derive_chord_quality_from_intervals
        [Interval.MinorThird, Interval.MinorSeventh] = .Ambiguous := by
  refine ⟨by decide, by decide⟩

/-- C5 (amended): the classifier requires a qualifying 5th for any seventh
reading: with a major 3rd, no minor 3rd and no 5th of any kind the result
is `Ambiguous` even when a minor 7th is present, and with a minor 3rd, no
major 3rd, no perfect 5th and no qualifying diminished 5th (diminished
present with augmented absent) the result is likewise `Ambiguous`. -/
theorem C5_no_fifth_blocks_seventh_reading :
    (∀ ivs : List Interval,
      ivs.contains Interval.MajorThird = true →
      ivs.contains Interval.MinorThird = false →
      ivs.contains Interval.MinorSeventh = true →
      ivs.contains Interval.PerfectFifth = false →
      ivs.contains Interval.DiminishedFifth = false →
      ivs.contains Interval.AugmentedFifth = false →
      derive_chord_quality_from_intervals ivs = .Ambiguous) ∧
    (∀ ivs : List Interval,
      ivs.contains Interval.MinorThird = true →
      ivs.contains Interval.MajorThird = false →
      ivs.contains Interval.MinorSeventh = true →
      ivs.contains Interval.PerfectFifth = false →
      (ivs.contains Interval.DiminishedFifth &&
        !ivs.contains Interval.AugmentedFifth) = false →
      derive_chord_quality_from_intervals ivs = .Ambiguous) := by
  constructor
  · intro ivs h1 h2 h3 h4 h5 h6
    simp only [derive_chord_quality_from_intervals, h1, h2, h4, h5, h6]
    simp
  · intro ivs h1 h2 h3 h4 h5
    simp only [derive_chord_quality_from_intervals, h1, h2, h4, h5]
    simp

theorem C5_no_fifth_blocks_seventh_reading_witness :
    derive_chord_quality_from_intervals
        [Interval.MajorThird, Interval.MinorSeventh] = .Ambiguous ∧
    derive_chord_quality_from_intervals
        [Interval.MinorThird, Interval.MinorSeventh] = .Ambiguous :=
  ⟨C5_no_fifth_blocks_seventh_reading.1
      [Interval.MajorThird, Interval.MinorSeventh]
      (by decide) (by decide) (by decide) (by decide) (by decide) (by decide),
   C5_no_fifth_blocks_seventh_reading.2
      [Interval.MinorThird, Interval.MinorSeventh]
      (by decide) (by decide) (by decide) (by decide) (by decide)⟩

/-- C4 (counterexample): parsing `Gdim9` yields the interval list
`[min3, dim5, dim7, maj9]` — the numeral `9` over a `Diminished` base
appends a *major* 9th, and `MinorNinth` does not occur. -/
theorem C4_counterexample_gdim9_has_major_ninth :
    (identify_from_name ("Gdim9".toList)).toOption.map Chord.intervals =
      some [Interval.MinorThird, Interval.DiminishedFifth,
            Interval.DiminishedSeventh, Interval.MajorNinth] ∧
    ([Interval.MinorThird, Interval.DiminishedFifth,
      Interval.DiminishedSeventh, Interval.MajorNinth].contains
        Interval.MinorNinth) = false := by
  refine ⟨by decide, by decide⟩

/-- C4 (amended): with a `Diminished` base quality, extension numeral `7`
appends a diminished 7th (instead of the minor 7th used otherwise) and
numeral `9` appends a diminished 7th together with a *major* 9th; a minor
9th enters only through numeral `11` with a `Diminished` base. Accordingly
`Gdim9` parses to `[min3, dim5, dim7, maj9]` and `Gdim7` to
`[min3, dim5, dim7]`, while `Gdim11` contains the minor 9th. -/
theorem C4_diminished_extension_rule :
    (∀ ivs : List Interval,
      apply_extension_numeral .Diminished ("7".toList) ivs =
        ivs ++ [.DiminishedSeventh]) ∧
    (∀ ivs : List Interval,
      apply_extension_numeral .Diminished ("9".toList) ivs =
        ivs ++ [.DiminishedSeventh, .MajorNinth]) ∧
    (∀ ivs : List Interval,
      apply_extension_numeral .Diminished ("11".toList) ivs =
        ivs ++ [.DiminishedSeventh, .MinorNinth, .PerfectEleventh]) ∧
    (identify_from_name ("Gdim9".toList)).toOption.map Chord.intervals =
      some [Interval.MinorThird, Interval.DiminishedFifth,
            Interval.DiminishedSeventh, Interval.MajorNinth] ∧
    (identify_from_name ("Gdim7".toList)).toOption.map Chord.intervals =
      some [Interval.MinorThird, Interval.DiminishedFifth,
            Interval.DiminishedSeventh] ∧
    (identify_from_name ("Gdim11".toList)).toOption.map Chord.intervals =
      some [Interval.MinorThird, Interval.DiminishedFifth,
            Interval.DiminishedSeventh, Interval.MinorNinth,
            Interval.PerfectEleventh] := by
  refine ⟨?_, ?_, ?_, by decide, by decide, by decide⟩
  · intro ivs; simp [apply_extension_numeral]
  · intro ivs; simp [apply_extension_numeral]
  · intro ivs; simp [apply_extension_numeral]

/-- C1 (counterexample): for the non-`Ambiguous` quality
`Suspended(Sus2)` and root `C`, the note list built from its canonical
interval set identifies with chord quality `Ambiguous`, so the
quality-to-notes-to-quality round trip is not the identity there. -/
theorem C1_counterexample_sus2_roundtrip :
    (identify_from_root_and_notes Note.C
        (Note.C :: (chord_quality_intervals (.Suspended .Sus2)).map
          (fun i => get_interval Note.C i))).chord_quality = .Ambiguous := by
  decide

/-- C1 (amended): the quality-to-notes-to-quality round trip is the
identity for every root and for the qualities the classifier in
`src/theory/chord.rs` can actually produce from a canonical set: `Major`,
`Minor`, `Diminished`, `Augmented`, `Seventh(Minor)` and
`Seventh(Dominant)`. -/
theorem C1_roundtrip_core_qualities (r : Note) (q : ChordQuality)
    (hq : q ∈ [ChordQuality.Major, .Minor, .Diminished, .Augmented,
               .Seventh .Minor, .Seventh .Dominant]) :
    (identify_from_root_and_notes r
        (r :: (chord_quality_intervals q).map
          (fun i => get_interval r i))).chord_quality = q := by
  fin_cases hq <;> cases r <;> decide

theorem C1_roundtrip_core_qualities_witness :
    (identify_from_root_and_notes Note.G
        (Note.G :: (chord_quality_intervals (.Seventh .Minor)).map
          (fun i => get_interval Note.G i))).chord_quality =
      ChordQuality.Seventh .Minor :=
  C1_roundtrip_core_qualities Note.G (.Seventh .Minor) (by decide)

/-- C10 (counterexample): on the single-element list `[D]` with root `C`
the derived interval list is `[MajorSecond]`, not empty — the deriver
computes an interval for every non-root note, even in a singleton list
(the chord quality is still `Ambiguous` there). -/
theorem C10_counterexample_singleton_nonroot :
    (identify_from_root_and_notes Note.C [Note.D]).intervals =
      [Interval.MajorSecond] ∧
    (identify_from_root_and_notes Note.C [Note.D]).chord_quality =
      .Ambiguous := by
  refine ⟨by decide, by decide⟩

/-- C10 (amended): `identify_from_root_and_notes` is total over the
12-value pitch-class domain — the `NOTE NOT PRESENT IN OCTAVE` branches of
`find_interval` are unreachable since every note occurs in `OCTAVE` — and
on an empty list the derived intervals are empty with quality `Ambiguous`;
on a single-element list the quality is always `Ambiguous`, and the
intervals are empty exactly when that element is the root itself. -/
theorem C10_totality_and_degenerate_inputs :
    (∀ r n : Note, (find_interval_opt r n).isSome = true) ∧
    (∀ r : Note, (identify_from_root_and_notes r []).intervals = [] ∧
      (identify_from_root_and_notes r []).chord_quality = .Ambiguous) ∧
    (∀ r : Note, (identify_from_root_and_notes r [r]).intervals = []) ∧
    (∀ r n : Note,
      (identify_from_root_and_notes r [n]).chord_quality = .Ambiguous) := by
  refine ⟨?_, ?_, ?_, ?_⟩
  · intro r n; cases r <;> cases n <;> decide
  · intro r; cases r <;> exact ⟨by decide, by decide⟩
  · intro r; cases r <;> decide
  · intro r n; cases r <;> cases n <;> decide

/-! ### Lemmas about the interval deriver -/

theorem octaveShiftFrom_length (l : List Nat) :
    ∀ prev : Nat, (octaveShiftFrom prev l).length = l.length := by
  induction l with
  | nil => intro prev; rfl
  | cons r rs ih =>
      intro prev
      simp only [octaveShiftFrom]
      split
      · simp
      · simp [ih]

theorem octaveDisambiguate_length (l : List Nat) :
    (octaveDisambiguate l).length = l.length := by
  cases l with
  | nil => rfl
  | cons r rs => simp [octaveDisambiguate, octaveShiftFrom_length]

theorem getD_map_add12 (l : List Nat) : ∀ k : Nat, k < l.length →
    (l.map (· + 12)).getD k 0 = l.getD k 0 + 12 := by
  induction l with
  | nil => intro k hk; simp at hk
  | cons a l ih =>
      intro k hk
      cases k with
      | zero => rfl
      | succ k =>
          rw [List.map_cons, List.getD_cons_succ, List.getD_cons_succ]
          exact ih k (by simpa using hk)

theorem getD_map_of_lt {α β : Type} (f : α → β) (l : List α) (d : α) (d' : β) :
    ∀ k : Nat, k < l.length → (l.map f).getD k d' = f (l.getD k d) := by
  induction l with
  | nil => intro k hk; simp at hk
  | cons a l ih =>
      intro k hk
      cases k with
      | zero => rfl
      | succ k =>
          rw [List.map_cons, List.getD_cons_succ, List.getD_cons_succ]
          exact ih k (by simpa using hk)

/-- Once two adjacent raw semitone values descend at positions
`(j, j+1)`, every position from `j+1` on is raised an octave by the shift
pass (the first register break is at or before `j+1`). -/
theorem octaveShiftFrom_break (l : List Nat) : ∀ (prev j k : Nat),
    j + 1 < l.length → j + 1 ≤ k → k < l.length →
    l.getD (j+1) 0 < l.getD j 0 →
    (octaveShiftFrom prev l).getD k 0 = l.getD k 0 + 12 := by
  induction l with
  | nil => intro prev j k h1; simp at h1
  | cons r rs ih =>
      intro prev j k h1 h2 h3 hbr
      simp only [octaveShiftFrom]
      by_cases hr : r < prev
      · rw [if_pos hr]
        cases k with
        | zero => omega
        | succ k' =>
            rw [List.getD_cons_succ, List.getD_cons_succ]
            exact getD_map_add12 rs k' (by simpa using h3)
      · rw [if_neg hr]
        cases k with
        | zero => omega
        | succ k' =>
            rw [List.getD_cons_succ, List.getD_cons_succ]
            cases j with
            | zero =>
                cases rs with
                | nil => simp at h1
                | cons b bs =>
                    have hb : b < r := by
                      simpa [List.getD_cons_succ] using hbr
                    simp only [octaveShiftFrom, if_pos hb]
                    cases k' with
                    | zero => rfl
                    | succ k'' =>
                        rw [List.getD_cons_succ, List.getD_cons_succ]
                        exact getD_map_add12 bs k'' (by simpa using h3)
            | succ j' =>
                exact ih r j' k'
                  (by simpa using h1) (by omega) (by simpa using h3)
                  (by simpa [List.getD_cons_succ] using hbr)

theorem octaveDisambiguate_eq_shiftFrom_head (r : Nat) (rs : List Nat) :
    octaveDisambiguate (r :: rs) = octaveShiftFrom r (r :: rs) := by
  simp [octaveDisambiguate, octaveShiftFrom]

theorem octaveDisambiguate_break (l : List Nat) (j k : Nat)
    (h1 : j + 1 < l.length) (h2 : j + 1 ≤ k) (h3 : k < l.length)
    (hbr : l.getD (j+1) 0 < l.getD j 0) :
    (octaveDisambiguate l).getD k 0 = l.getD k 0 + 12 := by
  cases l with
  | nil => simp at h1
  | cons r rs =>
      rw [octaveDisambiguate_eq_shiftFrom_head]
      exact octaveShiftFrom_break (r :: rs) r j k h1 h2 h3 hbr

/-- C9: the deriver computes a semitone distance for every note of the
input other than the root: the root is skipped wherever it appears in the
sequence and no non-root note is skipped, so the raw sequence is exactly
the root-distance image of the non-root notes, and its length is the
input length minus the number of root occurrences. -/
theorem C9_root_skipped_everywhere (root : Note) (notes : List Note) :
    rawSemitoneSequence root notes =
      (notes.filter (fun n => !(n == root))).map (find_semitones root) ∧
    (rawSemitoneSequence root notes).length =
      notes.length - notes.count root := by
  constructor
  · induction notes with
    | nil => rfl
    | cons a l ih =>
        by_cases h : a = root
        · subst h; simp [rawSemitoneSequence, ih]
        · simp [rawSemitoneSequence, h, ih]
  · induction notes with
    | nil => rfl
    | cons a l ih =>
        have hle : l.count root ≤ l.length := List.count_le_length root l
        by_cases h : a = root
        · subst h
          rw [show rawSemitoneSequence a (a :: l) = rawSemitoneSequence a l by
                simp [rawSemitoneSequence]]
          rw [List.length_cons, List.count_cons_self]
          omega
        · have hne : (a == root) = false := by simpa using h
          have hne' : (root == a) = false := by
            simpa using fun e => h e.symm
          rw [show rawSemitoneSequence root (a :: l) =
                find_semitones root a :: rawSemitoneSequence root l by
                simp [rawSemitoneSequence, hne]]
          rw [List.length_cons, List.length_cons, List.count_cons, hne]
          simp only [Bool.false_eq_true, if_false]
          omega

/-- C3: whenever a raw semitone value is smaller than its immediate
predecessor (positions `j`, `j+1` of the derived raw sequence), that
interval and every subsequent one is reinterpreted an octave higher — the
interval reported at any position `k ≥ j+1` is the name of the raw value
plus 12. Concretely, `identifyFromNotesAndRoot(G, [G, A#, D, F, A, C])`
yields intervals `[min3, P5, min7, maj9, P11]` and quality
`Seventh(Minor)`. -/
theorem C3_register_break_octave_shift :
    (∀ (root : Note) (notes : List Note) (j k : Nat),
      j + 1 < (rawSemitoneSequence root notes).length →
      j + 1 ≤ k → k < (rawSemitoneSequence root notes).length →
      (rawSemitoneSequence root notes).getD (j+1) 0 <
        (rawSemitoneSequence root notes).getD j 0 →
      ((octaveDisambiguate (rawSemitoneSequence root notes)).map
          intervalFromNat).getD k .Unknown =
        intervalFromNat ((rawSemitoneSequence root notes).getD k 0 + 12)) ∧
    (identify_from_root_and_notes Note.G
        [Note.G, Note.As, Note.D, Note.F, Note.A, Note.C]).intervals =
      [.MinorThird, .PerfectFifth, .MinorSeventh, .MajorNinth,
       .PerfectEleventh] ∧
    (identify_from_root_and_notes Note.G
        [Note.G, Note.As, Note.D, Note.F, Note.A, Note.C]).chord_quality =
      ChordQuality.Seventh .Minor := by
  refine ⟨?_, by decide, by decide⟩
  intro root notes j k h1 h2 h3 hbr
  have hk' : k < (octaveDisambiguate (rawSemitoneSequence root notes)).length := by
    rw [octaveDisambiguate_length]; exact h3
  rw [getD_map_of_lt intervalFromNat _ 0 .Unknown k hk']
  rw [octaveDisambiguate_break _ j k h1 h2 h3 hbr]

theorem C3_register_break_octave_shift_witness :
    ((octaveDisambiguate (rawSemitoneSequence Note.G
        [Note.G, Note.As, Note.D, Note.F, Note.A, Note.C])).map
      intervalFromNat).getD 4 .Unknown =
      intervalFromNat ((rawSemitoneSequence Note.G
        [Note.G, Note.As, Note.D, Note.F, Note.A, Note.C]).getD 4 0 + 12) :=
  C3_register_break_octave_shift.1 Note.G
    [Note.G, Note.As, Note.D, Note.F, Note.A, Note.C] 2 4
    (by decide) (by decide) (by decide) (by decide)

/-! ### Lemmas about the token scanners -/

theorem singleton_isPrefixOf (c : Char) (rest : List Char) :
    [c].isPrefixOf (c :: rest) = true := by
  simp [List.isPrefixOf]

theorem isPrefixOf_cons_head {x c : Char} (xs s : List Char)
    (h : (x :: xs).isPrefixOf (c :: s) = true) : x = c := by
  simp only [List.isPrefixOf, Bool.and_eq_true, beq_iff_eq] at h
  exact h.1

theorem find_first_token_mem (alts : List (List Char)) :
    ∀ s t : List Char, find_first_token alts s = some t → t ∈ alts := by
  intro s
  induction s with
  | nil => intro t h; simp [find_first_token] at h
  | cons c rest ih =>
      intro t h
      cases hf : alts.find? (fun tok => tok.isPrefixOf (c :: rest)) with
      | some t' =>
          have ht : t' = t := by simpa [find_first_token, hf] using h
          exact ht ▸ List.mem_of_find?_eq_some hf
      | none =>
          exact ih t (by simpa [find_first_token, hf] using h)

/-- The seven letter names that can begin a pitch-class token. -/
def noteLetters : List Char := ['A', 'B', 'C', 'D', 'E', 'F', 'G']

theorem note_token_head_letter (c : Char) (rest t : List Char)
    (hf : noteTokens.find? (fun tok => tok.isPrefixOf (c :: rest)) = some t) :
    c ∈ noteLetters := by
  have hmem : t ∈ noteTokens := List.mem_of_find?_eq_some hf
  have hp : t.isPrefixOf (c :: rest) = true := by
    simpa using List.find?_some hf
  fin_cases hmem <;>
    first
    | (have hx := isPrefixOf_cons_head _ _ hp; subst hx; decide)

theorem root_scan_isSome (s : List Char) :
    (find_first_token noteTokens s).isSome = true ↔
      ∃ c, c ∈ s ∧ c ∈ noteLetters := by
  induction s with
  | nil => simp [find_first_token]
  | cons c rest ih =>
      cases hf : noteTokens.find? (fun tok => tok.isPrefixOf (c :: rest)) with
      | some t =>
          have heq : find_first_token noteTokens (c :: rest) = some t := by
            simp [find_first_token, hf]
          rw [heq]
          simp only [Option.isSome_some, true_iff]
          exact ⟨c, List.mem_cons_self c rest, note_token_head_letter c rest t hf⟩
      | none =>
          have heq : find_first_token noteTokens (c :: rest) =
              find_first_token noteTokens rest := by
            simp [find_first_token, hf]
          rw [heq, ih]
          constructor
          · rintro ⟨d, hd, hdl⟩
            exact ⟨d, List.mem_cons_of_mem _ hd, hdl⟩
          · rintro ⟨d, hd, hdl⟩
            rcases List.mem_cons.mp hd with rfl | hd'
            · exfalso
              have hall := List.find?_eq_none.mp hf
              fin_cases hdl <;>
                exact hall _ (by decide) (singleton_isPrefixOf _ rest)
            · exact ⟨d, hd', hdl⟩

theorem root_token_parses (s t : List Char)
    (h : find_first_token noteTokens s = some t) :
    (note_from_str t).isSome = true := by
  have hm := find_first_token_mem noteTokens s t h
  fin_cases hm <;> decide

theorem quality_token_recognized (s t : List Char)
    (h : find_first_token qualityTokens s = some t) :
    (parse_chord_quality t).isOk = true := by
  have hm := find_first_token_mem qualityTokens s t h
  fin_cases hm <;> decide

theorem identify_from_name_isOk (s : List Char) :
    (identify_from_name s).isOk = (find_first_token noteTokens s).isSome := by
  cases hr : find_first_token noteTokens s with
  | none => simp [identify_from_name, hr, Except.isOk, Except.toBool]
  | some t =>
      have hparse := root_token_parses s t hr
      cases hn : note_from_str t with
      | none => rw [hn] at hparse; simp at hparse
      | some root =>
          cases hq : find_first_token qualityTokens s with
          | none =>
              simp [identify_from_name, hr, hn, base_quality_result, hq,
                Except.isOk, Except.toBool]
          | some qt =>
              have hqq := quality_token_recognized s qt hq
              cases hpc : parse_chord_quality qt with
              | error e => rw [hpc] at hqq; simp [Except.isOk, Except.toBool] at hqq
              | ok c =>
                  simp [identify_from_name, hr, hn, base_quality_result, hq,
                    hpc, Except.isOk, Except.toBool]

/-- C7: `identify_from_name` fails exactly when the symbol contains no
pitch-class token — equivalently, no letter `A`..`G` — and the
"quality token matched but unrecognized" failure branch is unreachable:
every token the base-quality scan can produce is accepted by
`parse_chord_quality`. -/
theorem C7_error_iff_no_root_token :
    (∀ s : List Char, ((identify_from_name s).isOk = true) ↔
      ∃ c, c ∈ s ∧ c ∈ noteLetters) ∧
    (∀ s t : List Char, find_first_token qualityTokens s = some t →
      (parse_chord_quality t).isOk = true) := by
  constructor
  · intro s
    rw [identify_from_name_isOk s]
    exact root_scan_isSome s
  · exact quality_token_recognized

theorem C7_error_iff_no_root_token_witness :
    (((identify_from_name ("Gm".toList)).isOk = true) ↔
      ∃ c, c ∈ "Gm".toList ∧ c ∈ noteLetters) ∧
    (parse_chord_quality ("m".toList)).isOk = true :=
  ⟨C7_error_iff_no_root_token.1 ("Gm".toList),
   C7_error_iff_no_root_token.2 ("Gm".toList) ("m".toList) (by decide)⟩

/-! ### Lemmas for the duplicate-freedom claim -/

theorem captures_at_snd_mem (alts1 alts2 : List (List Char)) (s : List Char)
    (cap : List Char × List Char) (h : captures_at alts1 alts2 s = some cap) :
    cap.2 ∈ alts2 := by
  obtain ⟨t1, _, hf⟩ := List.exists_of_findSome?_eq_some h
  cases hb : t1.isPrefixOf s with
  | false => rw [hb] at hf; simp at hf
  | true =>
      rw [hb] at hf
      simp only [if_true] at hf
      obtain ⟨t2, hfind, heq⟩ := Option.map_eq_some'.mp hf
      have hm := List.mem_of_find?_eq_some hfind
      rw [← heq]
      simpa using hm

theorem find_first_captures_snd_mem (alts1 alts2 : List (List Char)) :
    ∀ (s : List Char) (cap : List Char × List Char),
      find_first_captures alts1 alts2 s = some cap → cap.2 ∈ alts2 := by
  intro s
  induction s with
  | nil => intro cap h; simp [find_first_captures] at h
  | cons c rest ih =>
      intro cap h
      cases hf : captures_at alts1 alts2 (c :: rest) with
      | some cap' =>
          have hc : cap' = cap := by
            simpa [find_first_captures, hf] using h
          exact hc ▸ captures_at_snd_mem alts1 alts2 (c :: rest) cap' hf
      | none =>
          exact ih cap (by simpa [find_first_captures, hf] using h)

theorem dedupConsecutive_cons (a : Interval) (l : List Interval) :
    ∃ t, dedupConsecutive (a :: l) = a :: t := by
  induction l generalizing a with
  | nil => exact ⟨[], rfl⟩
  | cons b rest ih =>
      by_cases h : a = b
      · subst h
        obtain ⟨t, ht⟩ := ih a
        exact ⟨t, by simp [dedupConsecutive, ht]⟩
      · exact ⟨dedupConsecutive (b :: rest), by simp [dedupConsecutive, h]⟩

theorem chain'_ne_dedupConsecutive (l : List Interval) :
    List.Chain' (fun a b => a ≠ b) (dedupConsecutive l) := by
  induction l with
  | nil => simp [dedupConsecutive]
  | cons a l ih =>
      cases l with
      | nil => simp [dedupConsecutive]
      | cons b rest =>
          by_cases h : a = b
          · subst h
            simpa [dedupConsecutive] using ih
          · rw [show dedupConsecutive (a :: b :: rest) =
                  a :: dedupConsecutive (b :: rest) by
                simp [dedupConsecutive, h]]
            obtain ⟨t, ht⟩ := dedupConsecutive_cons b rest
            rw [ht]
            rw [ht] at ih
            exact List.chain'_cons.mpr ⟨h, ih⟩

theorem base_quality_mem (s : List Char) (b : ChordQuality)
    (h : base_quality_result s = .ok b) :
    b ∈ [ChordQuality.Major, .Minor, .Diminished, .Augmented,
         .Suspended .Sus2, .Suspended .Sus4] := by
  unfold base_quality_result at h
  cases hq : find_first_token qualityTokens s with
  | none =>
      rw [hq] at h
      simp only [Except.ok.injEq] at h
      subst h; decide
  | some t =>
      rw [hq] at h
      have hm := find_first_token_mem qualityTokens s t hq
      fin_cases hm <;>
        · simp [parse_chord_quality] at h
          subst h; decide

theorem extension_step_nodup (s : List Char) (b : ChordQuality)
    (hb : b ∈ [ChordQuality.Major, .Minor, .Diminished, .Augmented,
               .Suspended .Sus2, .Suspended .Sus4]) :
    (extension_step s b (chord_quality_intervals b)).1.Nodup := by
  unfold extension_step
  cases hx : find_first_captures extensionGroup1 extensionNumerals s with
  | none =>
      simp only
      fin_cases hb <;> decide
  | some cap =>
      obtain ⟨t1, t2⟩ := cap
      have h2 := find_first_captures_snd_mem extensionGroup1
        extensionNumerals s (t1, t2) hx
      simp only
      fin_cases hb <;> fin_cases h2 <;> decide

theorem add_step_nodup (ad : Option Interval) (ivs : List Interval)
    (q : ChordQuality) (h : ivs.Nodup) : (add_step ad ivs q).1.Nodup := by
  cases ad with
  | none => exact h
  | some i =>
      by_cases hm : i ∈ ivs
      · have hc : ivs.contains i = true := by simpa using hm
        simp [add_step, hc, hm, h]
      · have hc : ivs.contains i = false := by simpa using hm
        have happ : (ivs ++ [i]).Nodup := by
          rw [List.nodup_append]
          refine ⟨h, List.nodup_singleton i, ?_⟩
          intro a ha hai
          rw [List.mem_singleton] at hai
          subst hai
          exact hm ha
        simpa [add_step, hc, hm] using happ

/-- C8 (counterexample): the notes entry point can return duplicate
interval values: with root `C` and notes `[C, G, D, E, F, E]` the
register-break pass maps the raw distances `[7, 2, 4, 5, 4]` to
`[P5, maj9, Unknown, P11, Unknown]`, and the consecutive-only
de-duplication keeps both `Unknown`s (count 2). -/
theorem C8_counterexample_duplicate_interval :
    (identify_from_root_and_notes Note.C
        [Note.C, Note.G, Note.D, Note.E, Note.F, Note.E]).intervals =
      [.PerfectFifth, .MajorNinth, .Unknown, .PerfectEleventh, .Unknown] ∧
    ((identify_from_root_and_notes Note.C
        [Note.C, Note.G, Note.D, Note.E, Note.F, Note.E]).intervals.count
      Interval.Unknown) = 2 := by
  refine ⟨by decide, by decide⟩

/-- C8 (amended): every `Chord` returned by `identify_from_name` carries
duplicate-free intervals; the notes entry point guarantees only that
consecutive interval values differ (the `Vec::dedup` semantics of the
deriver's final step) — non-adjacent duplicates can survive. -/
theorem C8_intervals_dedup_guarantees :
    (∀ (s : List Char) (c : Chord), identify_from_name s = .ok c →
      c.intervals.Nodup) ∧
    (∀ (r : Note) (ns : List Note),
      List.Chain' (fun a b => a ≠ b)
        ((identify_from_root_and_notes r ns).intervals)) := by
  constructor
  · intro s c h
    unfold identify_from_name at h
    cases hr : find_first_token noteTokens s with
    | none => simp [hr] at h
    | some t =>
        cases hn : note_from_str t with
        | none => simp [hr, hn] at h
        | some root =>
            cases hb : base_quality_result s with
            | error e => simp [hr, hn, hb] at h
            | ok base =>
                simp [hr, hn, hb] at h
                subst h
                exact add_step_nodup _ _ _
                  (extension_step_nodup s base (base_quality_mem s base hb))
  · intro r ns
    exact chain'_ne_dedupConsecutive _

theorem C8_intervals_dedup_guarantees_witness :
    ([Interval.MinorThird, Interval.PerfectFifth] : List Interval).Nodup ∧
    List.Chain' (fun a b => a ≠ b)
      ((identify_from_root_and_notes Note.C
          [Note.C, Note.E, Note.G]).intervals) :=
  ⟨C8_intervals_dedup_guarantees.1 ("Gm".toList)
      { name := "Gm".toList
        root := Note.G
        notes := [Note.G, Note.As, Note.D]
        triad_quality := .Minor
        chord_quality := .Minor
        add_degree := none
        intervals := [Interval.MinorThird, Interval.PerfectFifth] }
      (by rfl),
   C8_intervals_dedup_guarantees.2 Note.C [Note.C, Note.E, Note.G]⟩

end Struck
